import Mathlib

/-!
Verification of the storyscript tree-to-IR lowering compiler
(`src/storyscript/compiler/objects.py`).

The concrete syntax tree (CST) fed to the compiler is produced by an
external lark-based parser.  The repository's `Tree` wrapper
(`storyscript/parser/tree.py`, not shipped under `src/`) is modelled from
the spec's input contract (§6): a node carries a `kind` tag (`data`) and an
ordered list of children; a leaf token carries a `type` and a raw string
`value`; `child(i)` returns the i-th child or nothing; a named-slot
accessor returns the first child node whose tag equals the slot name, or
nothing.

Python values that the compiler can return (dicts, lists, ints, bools,
strings and `None`) are embedded as the inductive type `IR`.  Every
compile function is embedded as `Tree → Option IR` (or a close variant):
`none` marks the executions in which the Python code raises
(`AttributeError`/`ValueError`/`NameError` on shapes the upstream grammar
can never produce) or would embed a raw parse tree — a non-serializable
value outside the IR — into its output; `some IR.vnone` marks the
executions in which Python silently returns the value `None`.
-/

namespace Storyscript

/-- A CST node: either a leaf token (`type`, `value`) or an inner node
(`data` tag plus ordered children).  Modelled from the spec: §6 input
contract of the external parser. -/
inductive Tree where
  | token (ttype : String) (value : String)
  | node (data : String) (children : List Tree)

/-- Python values produced by the compiler: ints, bools, strings, lists,
(insertion-ordered) dicts with string keys, and `None`. -/
inductive IR where
  | vint (n : Int)
  | vbool (b : Bool)
  | vstr (s : String)
  | vlist (xs : List IR)
  | vdict (fields : List (String × IR))
  | vnone

namespace Tree

/-- Modelled from the spec: `Tree.child(index)` returns the index-th child
when it exists (`None` otherwise); calling it on a leaf token raises. -/
def childN : Tree → Nat → Option Tree
  | .token _ _, _ => none
  | .node _ cs, i => cs.get? i

/-- Modelled from the spec: the named-slot lookup walks the direct
children and returns the first inner node whose tag is the slot name. -/
def walkSlot : List Tree → String → Option Tree
  | [], _ => none
  | .token _ _ :: rest, name => walkSlot rest name
  | .node d cs :: rest, name =>
      if d = name then some (.node d cs) else walkSlot rest name

/-- Modelled from the spec: named-slot accessor (`tree.<name>` /
`tree.node(name)`), returning the first child node tagged `name`. -/
def slot : Tree → String → Option Tree
  | .token _ _, _ => none
  | .node _ cs, name => walkSlot cs name

mutual

/-- Modelled from the spec: `find_data` collects every subtree (the node
itself included) whose tag equals `d`, in document order. -/
def findData : Tree → String → List Tree
  | .token _ _, _ => []
  | .node dd cs, d =>
      (if dd = d then [Tree.node dd cs] else []) ++ findDataList cs d

/-- `findData` mapped over a list of children, in order. -/
def findDataList : List Tree → String → List Tree
  | [], _ => []
  | t :: ts, d => findData t d ++ findDataList ts d

end

end Tree

/-! ### Character-level string machinery

`re.findall(r'\x7b([^\x7d]*)\x7d', s)` and `str.replace` are embedded
over `List Char`.  A `String` in this toolchain is a structure holding a
`List Char`, so the two levels convert by `rfl`. -/

/-- Scan for the first `'\x7d'`: `splitBrace l = some (i, r)` when
`l = i ++ '\x7d' :: r` with no `'\x7d'` in `i`; `none` when `l` has no
`'\x7d'` at all.  This is how the regex `[^\x7d]*\x7d` consumes input. -/
def splitBrace : List Char → Option (List Char × List Char)
  | [] => none
  | c :: rest =>
      if c = '}' then some ([], rest)
      else (splitBrace rest).map (fun p => (c :: p.1, p.2))

/-- Termination measure for the scanners below: the remainder after the
first `'\x7d'` is shorter than the input. -/
theorem splitBrace_length {l : List Char} {i r} (h : splitBrace l = some (i, r)) :
    r.length < l.length := by
  induction l generalizing i r with
  | nil => simp [splitBrace] at h
  | cons c rest ih =>
    rw [splitBrace] at h
    by_cases hc : c = '}'
    · rw [if_pos hc] at h
      injection h with h
      injection h with h1 h2
      subst h2
      simp
    · rw [if_neg hc] at h
      cases hsb : splitBrace rest with
      | none => rw [hsb] at h; simp at h
      | some p =>
        obtain ⟨i', r'⟩ := p
        rw [hsb] at h
        simp only [Option.map_some'] at h
        injection h with h
        injection h with h1 h2
        subst h2
        exact Nat.lt_succ_of_lt (ih hsb)

/-- The list of placeholder captures of `re.findall(r'\x7b([^\x7d]*)\x7d', ·)`,
first-to-last, duplicates kept: at each `'\x7b'`, the capture runs to the
first following `'\x7d'` (backtracking makes `[^\x7d]*` stop exactly
there); scanning resumes after that `'\x7d'`. -/
def findall : List Char → List (List Char)
  | [] => []
  | c :: rest =>
      if c = '{' then
        match h : splitBrace rest with
        | some (i, r) => i :: findall r
        | none => []
      else findall rest
termination_by l => l.length
decreasing_by
  · exact Nat.lt_succ_of_lt (splitBrace_length h)
  · exact Nat.lt_succ_self _

/-- Python `str.replace(pat, repl)` on character lists: replace every
non-overlapping occurrence of `pat`, scanning left to right.  (The
compiler only ever calls it with a nonempty `pat`.) -/
def replaceAll : List Char → List Char → List Char → List Char
  | [], _, _ => []
  | c :: rest, pat, repl =>
      if h : pat ≠ [] ∧ pat.isPrefixOf (c :: rest) then
        repl ++ replaceAll ((c :: rest).drop pat.length) pat repl
      else
        c :: replaceAll rest pat repl
termination_by s _ _ => s.length
decreasing_by
  · simp
    have : pat.length ≠ 0 := by
      intro h0
      exact h.1 (List.length_eq_zero.mp h0)
    omega
  · exact Nat.lt_succ_self _

/-- Spec-side reading of claim C1: the original text with every
placeholder occurrence (every `findall` span) replaced by the empty
positional marker, in one left-to-right pass. -/
def replaceEachOccurrence : List Char → List Char
  | [] => []
  | c :: rest =>
      if c = '{' then
        match h : splitBrace rest with
        | some (_, r) => '{' :: '}' :: replaceEachOccurrence r
        | none => c :: rest
      else c :: replaceEachOccurrence rest
termination_by l => l.length
decreasing_by
  · exact Nat.lt_succ_of_lt (splitBrace_length h)
  · exact Nat.lt_succ_self _

/-- Spec-side reading of claim C1: fill the empty positional markers of a
template, left to right, with the given substitution texts. -/
def fillMarkers : List Char → List (List Char) → List Char
  | [], _ => []
  | c :: rest, subs =>
      if c = '{' then
        match rest, subs with
        | c2 :: rest2, s :: ss =>
            if c2 = '}' then s ++ fillMarkers rest2 ss
            else c :: fillMarkers (c2 :: rest2) (s :: ss)
        | [], sr => c :: fillMarkers [] sr
        | rr, [] => c :: fillMarkers rr []
      else c :: fillMarkers rest subs
termination_by l _ => l.length
decreasing_by
  all_goals simp_arith

/-! ### The compiler (`storyscript/compiler/objects.py`, class `Objects`) -/

namespace Objects

/-- Python `value[1:-1]`: the text with its first and last characters (the
surrounding quotes) stripped. -/
def stripQuotes (s : String) : String := ⟨(s.data.drop 1).dropLast⟩

/-- The IR path object `\x7b'$OBJECT': 'path', 'paths': names\x7d`. -/
def pathOf (xs : List IR) : IR :=
  .vdict [("$OBJECT", .vstr "path"), ("paths", .vlist xs)]

mutual

/-- `Objects.names`: the base segment is the first child token's text;
each following fragment contributes its inner child — a token's literal
text, a quoted string's quote-stripped text, or a recursively resolved
path.  `none` embeds the runs in which Python raises (token or missing
first child) or appends a raw tree / `None` to the segment list (fragment
whose inner child is an inner node of any other kind). -/
def names : Tree → Option (List IR)
  | .node _ (.token _ v :: frags) =>
      (namesFrags frags).map (fun rest => IR.vstr v :: rest)
  | _ => none

/-- The loop `for fragment in tree.children[1:]` of `Objects.names`. -/
def namesFrags : List Tree → Option (List IR)
  | [] => some []
  | .token _ _ :: _ => none
  | .node _ [] :: _ => none
  | .node _ (c :: _) :: frags =>
      Option.bind
        (match c with
         | .token _ w => some (IR.vstr w)
         | .node cd cs =>
             if cd = "string" then
               match cs with
               | .token _ q :: _ => some (IR.vstr (stripQuotes q))
               | _ => none
             else if cd = "path" then (names (.node cd cs)).map pathOf
             else none)
        (fun seg => (namesFrags frags).map (fun rest => seg :: rest))

end

/-- `Objects.path`: `\x7b'$OBJECT': 'path', 'paths': cls.names(tree)\x7d`. -/
def path (t : Tree) : Option IR := (names t).map pathOf

/-- Decimal digit run: `none` unless nonempty and all digits. -/
def digitsVal (l : List Char) : Option Nat :=
  if l ≠ [] ∧ l.all Char.isDigit then
    some (l.foldl (fun acc c => acc * 10 + (c.toNat - 48)) 0)
  else none

/-- Python `int(...)` on the numeral shapes the grammar's number token can
carry: an optional sign followed by decimal digits; `none` embeds the
`ValueError` raise on any other text. -/
def pyInt (s : String) : Option Int :=
  match s.data with
  | '-' :: ds => (digitsVal ds).map (fun n => -(n : Int))
  | '+' :: ds => (digitsVal ds).map (fun n => (n : Int))
  | ds => (digitsVal ds).map (fun n => (n : Int))

/-- `Objects.number`: `int(tree.child(0).value)`. -/
def number : Tree → Option IR
  | .node _ (.token _ v :: _) => (pyInt v).map IR.vint
  | _ => none

/-- Python `str.replace` lifted to `String`. -/
def pyReplace (s pat repl : String) : String :=
  ⟨replaceAll s.data pat.data repl.data⟩

/-- `re.findall(r'\x7b([^\x7d]*)\x7d', s)` lifted to `String`. -/
def findallS (s : String) : List String :=
  (findall s.data).map (fun cs => ⟨cs⟩)

/-- `Objects.replace_placeholders`: for each match, replace every
occurrence of `'\x7b' + match + '\x7d'` with the empty marker. -/
def replace_placeholders (s : String) (ms : List String) : String :=
  ms.foldl (fun acc m => pyReplace acc ("\x7b" ++ m ++ "\x7d") "\x7b\x7d") s

/-- `Objects.placeholders_values`: one single-segment path per match, in
match order. -/
def placeholders_values : List String → Option (List IR)
  | [] => some []
  | m :: ms =>
      Option.bind (path (Tree.node "path" [Tree.token "WORD" m])) (fun v =>
        (placeholders_values ms).map (fun vs => v :: vs))

/-- `Objects.string`: strip the quotes, extract the placeholder matches;
with no matches return the two-field dict unchanged, otherwise add the
substitution values and replace the placeholders in the stored text. -/
def string (t : Tree) : Option IR :=
  match t with
  | .node _ (.token _ v :: _) =>
      let s := stripQuotes v
      let ms := findallS s
      if ms = [] then
        some (.vdict [("$OBJECT", .vstr "string"), ("string", .vstr s)])
      else
        (placeholders_values ms).map (fun vals =>
          .vdict [("$OBJECT", .vstr "string"),
                  ("string", .vstr (replace_placeholders s ms)),
                  ("values", .vlist vals)])
  | _ => none

/-- `Objects.boolean`: `True` exactly when the first child token's text is
`'true'`.  A first child that is an inner node or missing compares unequal
to `'true'` without raising, hence `False`. -/
def boolean : Tree → Option IR
  | .token _ _ => none
  | .node _ (.token _ v :: _) =>
      if v = "true" then some (.vbool true) else some (.vbool false)
  | .node _ _ => some (.vbool false)

/-- `Objects.types`: `\x7b'$OBJECT': 'type', 'type': tree.child(0).value\x7d`. -/
def types : Tree → Option IR
  | .node _ (.token _ v :: _) =>
      some (.vdict [("$OBJECT", .vstr "type"), ("type", .vstr v)])
  | _ => none

/-- The key branch of the entry loop of `Objects.objects`: a string key
node compiles as a string literal, a path key node resolves as a path; any
other inner node leaves the Python `key` variable untouched (the previous
iteration's key, `NameError` on the first entry); a token key raises. -/
def keyOf (kc : Tree) (lastKey : Option IR) : Option IR :=
  match kc with
  | .node kd cs =>
      if kd = "string" then string (.node kd cs)
      else if kd = "path" then path (.node kd cs)
      else lastKey
  | .token _ _ => none

mutual

/-- `Objects.values`: dispatch on the inner child.  An inner node of an
unhandled kind, and a leaf token whose type is not `NAME`, both fall off
the end of the Python function, silently returning `None` (`IR.vnone`). -/
def values : Tree → Option IR
  | .token _ _ => none
  | .node _ [] => none
  | .node d (s :: rest) =>
      match s with
      | .node sd cs =>
          if sd = "string" then string (.node sd cs)
          else if sd = "boolean" then boolean (.node sd cs)
          else if sd = "list" then list (.node sd cs)
          else if sd = "number" then number (.node sd cs)
          else if sd = "objects" then objects (.node sd cs)
          else if sd = "types" then types (.node sd cs)
          else some IR.vnone
      | .token ty _ =>
          if ty = "NAME" then path (.node d (s :: rest)) else some IR.vnone

/-- `Objects.list`: one compiled value per child, in order. -/
def list : Tree → Option IR
  | .token _ _ => none
  | .node _ cs =>
      (valuesList cs).map (fun items =>
        .vdict [("$OBJECT", .vstr "list"), ("items", .vlist items)])

/-- The loop `for value in tree.children` of `Objects.list`. -/
def valuesList : List Tree → Option (List IR)
  | [] => some []
  | t :: ts =>
      Option.bind (values t) (fun v =>
        (valuesList ts).map (fun vs => v :: vs))

/-- `Objects.objects`: one `[key, value]` pair per entry, in order.  The
`key` variable is only assigned when the entry's first child is a string
or path node; on any other inner node Python silently reuses the previous
iteration's key (threaded here as `lastKey`) and raises `NameError` on the
first entry (`lastKey = none`). -/
def objects : Tree → Option IR
  | .token _ _ => none
  | .node _ cs =>
      (objectsItems cs none).map (fun items =>
        .vdict [("$OBJECT", .vstr "dict"), ("items", .vlist items)])

/-- The loop `for item in tree.children` of `Objects.objects`: entries
with a single child compute their key and then raise on the missing value
child (`values(None)`). -/
def objectsItems : List Tree → Option IR → Option (List IR)
  | [], _ => some []
  | .token _ _ :: _, _ => none
  | .node _ [] :: _, _ => none
  | .node _ [kc] :: _, lastKey =>
      Option.bind (keyOf kc lastKey) (fun _ => none)
  | .node _ (kc :: vc :: _) :: items, lastKey =>
      Option.bind (keyOf kc lastKey) (fun key =>
        Option.bind (values vc) (fun v =>
          (objectsItems items (some key)).map
            (fun rest => IR.vlist [key, v] :: rest)))

end

/-- `Objects.argument`: name from the first child token, value from
`Objects.values` on the second child. -/
def argument : Tree → Option IR
  | .node _ (.token _ n :: c1 :: _) =>
      (values c1).map (fun v =>
        .vdict [("$OBJECT", .vstr "argument"), ("name", .vstr n),
                ("argument", v)])
  | _ => none

/-- The loop `for argument in list(tree.find_data('arguments'))`. -/
def argumentList : List Tree → Option (List IR)
  | [] => some []
  | a :: ts =>
      Option.bind (argument a) (fun x =>
        (argumentList ts).map (fun rest => x :: rest))

/-- `Objects.arguments`: compile every `arguments` production found in the
subtree, in document order. -/
def arguments (t : Tree) : Option (List IR) :=
  argumentList (t.findData "arguments")

/-- `Objects.mutation`: the name defaults to the first child token's text
and is overridden by the `command` slot's first child token when that slot
is present; the arguments come from the `arguments` slot when present,
else the empty list. -/
def mutation : Tree → Option IR
  | .token _ _ => none
  | .node _ [] => none
  | .node d (c0 :: cs) =>
      Option.bind
        (match (Tree.node d (c0 :: cs)).slot "arguments" with
         | some a => arguments a
         | none => some [])
        (fun args =>
          Option.bind
            (match (Tree.node d (c0 :: cs)).slot "command" with
             | some (.node _ (.token _ cv :: _)) => some cv
             | some _ => none
             | none =>
                 match c0 with
                 | .token _ v => some v
                 | .node _ _ => none)
            (fun name =>
              some (.vdict [("$OBJECT", .vstr "mutation"),
                            ("mutation", .vstr name),
                            ("arguments", .vlist args)])))

/-- `Objects.typed_argument`: the value child is wrapped in a synthetic
single-child container (`Tree('anon', [...])`) and routed through
`Objects.values`. -/
def typed_argument (t : Tree) : Option IR :=
  match t.slot "typed_argument" with
  | some (.node _ (.token _ n :: c1 :: _)) =>
      (values (Tree.node "anon" [c1])).map (fun v =>
        .vdict [("$OBJECT", .vstr "argument"), ("name", .vstr n),
                ("argument", v)])
  | _ => none

/-- The loop `for argument in list(tree.find_data('function_argument'))`. -/
def typedArgumentList : List Tree → Option (List IR)
  | [] => some []
  | a :: ts =>
      Option.bind (typed_argument a) (fun x =>
        (typedArgumentList ts).map (fun rest => x :: rest))

/-- `Objects.function_arguments`: every `function_argument` production, in
document order, through `typed_argument`. -/
def function_arguments (t : Tree) : Option (List IR) :=
  typedArgumentList (t.findData "function_argument")

/-- `Objects.fill_expression`: `'\x7b\x7d \x7b\x7d \x7b\x7d'.format(...)`. -/
def fill_expression (l op r : String) : String :=
  l ++ " " ++ op ++ " " ++ r

/-- `Objects.expression`: with a `values` slot, a single two-operand
expression dict; otherwise the `path_value` branch returns a one-element
list, holding the bare left value when the second child is absent and an
expression dict when a comparison is present. -/
def expression (t : Tree) : Option IR :=
  match t.slot "values" with
  | some vs =>
      Option.bind
        (match t.slot "operator" with
         | some (.node _ (.token _ v :: _)) => some v
         | _ => none)
        (fun op => Option.bind (values vs) (fun lhs =>
          Option.bind (t.childN 2) (fun c2 =>
            (values c2).map (fun rhs =>
              .vdict [("$OBJECT", .vstr "expression"),
                      ("expression", .vstr (fill_expression "\x7b\x7d" op "\x7b\x7d")),
                      ("values", .vlist [lhs, rhs])]))))
  | none =>
      Option.bind (t.slot "path_value") (fun pv =>
        Option.bind (pv.childN 0) (fun pv0 =>
          Option.bind (values pv0) (fun lhs =>
            match t.childN 1 with
            | none => some (.vlist [lhs])
            | some comp =>
                Option.bind
                  (match t.childN 2 with
                   | some c2 => c2.childN 0
                   | none => none)
                  (fun c20 => Option.bind (values c20) (fun rhs =>
                    (match comp with
                     | .node _ (.token _ v :: _) => some v
                     | _ => none).map (fun op =>
                      .vlist [.vdict [("$OBJECT", .vstr "expression"),
                              ("expression",
                               .vstr (fill_expression "\x7b\x7d" op "\x7b\x7d")),
                              ("values", .vlist [lhs, rhs])]]))))))

end Objects

/-! ### Spec-side predicates used to state the claims -/

/-- The composite-IR discriminator contract: the value is a dict whose
first field is the reserved `$OBJECT` key naming the variant. -/
def hasTag (r : IR) (tag : String) : Prop :=
  ∃ fs, r = IR.vdict (("$OBJECT", IR.vstr tag) :: fs)

/-- Claim C3's segment contract, fragment by fragment: an identifier token
contributes its literal text, a quoted string literal its quote-stripped
text, a nested path node its recursively resolved path. -/
def fragSeg : Tree → IR → Prop
  | .node _ (.token _ w :: _), s => s = IR.vstr w
  | .node _ (.node cd cs :: _), s =>
      (cd = "string" ∧ ∃ ct q qrest, cs = Tree.token ct q :: qrest ∧
        s = IR.vstr (Objects.stripQuotes q)) ∨
      (cd = "path" ∧ Objects.path (.node cd cs) = some s)
  | _, _ => False

/-- The grammar shape of a dict entry: a key child that is a string or
path node, followed by a value child. -/
def wfEntry : Tree → Prop
  | .node _ (.node kd _ :: _ :: _) => kd = "string" ∨ kd = "path"
  | _ => False

/-- Claim C6's entry contract: the key compiled as a string literal when
the key node is a quoted string, resolved as a path otherwise, the value
compiled recursively, the pair kept as a two-element list. -/
def entrySpec : Tree → IR → Prop
  | .node _ (.node kd cs :: vc :: _), p =>
      (kd = "string" ∧ ∃ k v, Objects.string (.node kd cs) = some k ∧
        Objects.values vc = some v ∧ p = IR.vlist [k, v]) ∨
      (kd = "path" ∧ ∃ k v, Objects.path (.node kd cs) = some k ∧
        Objects.values vc = some v ∧ p = IR.vlist [k, v])
  | _, _ => False

/-! ### Segment decomposition of a template source text (claim C1 infra)

A text scanned by the placeholder regex splits into single literal
characters and whole placeholder spans; the replacement behaviour of
`Objects.replace_placeholders` is proved against this decomposition. -/

/-- One piece of the scan: a literal character or a placeholder with the
given inner text. -/
inductive Seg where
  | ch (c : Char)
  | ph (m : List Char)

/-- The source text of a decomposition. -/
def flatSegs : List Seg → List Char
  | [] => []
  | .ch c :: rest => c :: flatSegs rest
  | .ph m :: rest => '{' :: (m ++ '}' :: flatSegs rest)

/-- The template of a decomposition: every placeholder becomes the empty
marker. -/
def tmplSegs : List Seg → List Char
  | [] => []
  | .ch c :: rest => c :: tmplSegs rest
  | .ph _ :: rest => '{' :: '}' :: tmplSegs rest

/-- The placeholder payloads of a decomposition, in order. -/
def phsSegs : List Seg → List (List Char)
  | [] => []
  | .ch _ :: rest => phsSegs rest
  | .ph m :: rest => m :: phsSegs rest

/-- Parse a text into its decomposition, mirroring the regex scan. -/
def parseSegs : List Char → List Seg
  | [] => []
  | c :: rest =>
      if c = '{' then
        match h : splitBrace rest with
        | some (i, r) => .ph i :: parseSegs r
        | none => (c :: rest).map .ch
      else .ch c :: parseSegs rest
termination_by l => l.length
decreasing_by
  · exact Nat.lt_succ_of_lt (splitBrace_length h)
  · exact Nat.lt_succ_self _

/-- Well-formed decomposition: placeholder payloads never contain
`'\x7d'`; a literal `'\x7b'` can only occur in the unclosed tail, a final
all-literal block containing no `'\x7d'`. -/
inductive GoodSegs : List Seg → Prop
  | nil : GoodSegs []
  | tail (cs : List Char) : '}' ∉ cs → GoodSegs (cs.map .ch)
  | ch (c : Char) (segs : List Seg) : c ≠ '{' → GoodSegs segs →
      GoodSegs (.ch c :: segs)
  | ph (m : List Char) (segs : List Seg) : '}' ∉ m → GoodSegs segs →
      GoodSegs (.ph m :: segs)

/-- One `str.replace` pass at decomposition level: placeholders whose
payload equals the match lose their payload; everything else is kept. -/
def setSeg (m : List Char) : Seg → Seg
  | .ph p => if p = m then .ph [] else .ph p
  | .ch c => .ch c

/-! ### Claim theorems -/

theorem splitBrace_some {l i r} (h : splitBrace l = some (i, r)) :
    l = i ++ '}' :: r ∧ '}' ∉ i := by
  induction l generalizing i r with
  | nil => simp [splitBrace] at h
  | cons c rest ih =>
    rw [splitBrace] at h
    by_cases hc : c = '}'
    · rw [if_pos hc] at h
      injection h with h
      injection h with h1 h2
      subst h1; subst h2
      simp [hc]
    · rw [if_neg hc] at h
      cases hsb : splitBrace rest with
      | none => rw [hsb] at h; simp at h
      | some p =>
        obtain ⟨i', r'⟩ := p
        rw [hsb] at h
        simp only [Option.map_some'] at h
        injection h with h
        injection h with h1 h2
        subst h1; subst h2
        obtain ⟨he, hni⟩ := ih hsb
        constructor
        · simp [he]
        · intro hm
          rcases List.mem_cons.mp hm with h1 | h1
          · exact hc h1.symm
          · exact hni h1

theorem splitBrace_none {l} (h : splitBrace l = none) : '}' ∉ l := by
  induction l with
  | nil => simp
  | cons c rest ih =>
    rw [splitBrace] at h
    by_cases hc : c = '}'
    · rw [if_pos hc] at h; exact absurd h (by simp)
    · rw [if_neg hc] at h
      cases hsb : splitBrace rest with
      | none =>
        intro hm
        rcases List.mem_cons.mp hm with h1 | h1
        · exact hc h1.symm
        · exact ih hsb h1
      | some p => rw [hsb] at h; simp at h

/-- C5: `Objects.boolean` returns true if and only if the first child
token's text is exactly the lowercase string `true`; every other token
text — `false`, the case variant `True`, any arbitrary text — yields
false. -/
theorem claim_C5_boolean_asymmetry :
    (∀ d tt rest,
      Objects.boolean (.node d (.token tt "true" :: rest)) = some (.vbool true)) ∧
    (∀ d tt v rest, v ≠ "true" →
      Objects.boolean (.node d (.token tt v :: rest)) = some (.vbool false)) := by
  constructor
  · intro d tt rest
    simp [Objects.boolean]
  · intro d tt v rest hv
    simp [Objects.boolean, hv]

/-- C5 witness: `true` compiles to true; `false`, `True` and `banana`
compile to false. -/
theorem claim_C5_boolean_asymmetry_witness :
    Objects.boolean (.node "boolean" [.token "NAME" "true"]) = some (.vbool true) ∧
    Objects.boolean (.node "boolean" [.token "NAME" "false"]) = some (.vbool false) ∧
    Objects.boolean (.node "boolean" [.token "NAME" "True"]) = some (.vbool false) ∧
    Objects.boolean (.node "boolean" [.token "NAME" "banana"]) = some (.vbool false) :=
  ⟨claim_C5_boolean_asymmetry.1 "boolean" "NAME" [],
   claim_C5_boolean_asymmetry.2 "boolean" "NAME" "false" [] (by decide),
   claim_C5_boolean_asymmetry.2 "boolean" "NAME" "True" [] (by decide),
   claim_C5_boolean_asymmetry.2 "boolean" "NAME" "banana" [] (by decide)⟩

/-- C9: the value dispatcher falls off the end of the Python function and
silently returns `None` — never an error — both for an inner node of a
kind other than string, boolean, list, number, objects, types, and for a
leaf token whose type is not `NAME`. -/
theorem claim_C9_values_silent_fallthrough :
    (∀ d k cs rest,
      k ∉ (["string", "boolean", "list", "number", "objects", "types"] : List String) →
      Objects.values (.node d (.node k cs :: rest)) = some IR.vnone) ∧
    (∀ d ty v rest, ty ≠ "NAME" →
      Objects.values (.node d (.token ty v :: rest)) = some IR.vnone) := by
  constructor
  · intro d k cs rest hk
    simp only [List.mem_cons, List.not_mem_nil, or_false] at hk
    push_neg at hk
    obtain ⟨h1, h2, h3, h4, h5, h6⟩ := hk
    simp [Objects.values, h1, h2, h3, h4, h5, h6]
  · intro d ty v rest hty
    simp [Objects.values, hty]

/-- C9 witness: a `foo`-kind inner node and a non-`NAME` token both
compile to `None`. -/
theorem claim_C9_values_silent_fallthrough_witness :
    Objects.values (.node "values" [.node "foo" [.token "NAME" "x"]]) = some IR.vnone ∧
    Objects.values (.node "values" [.token "INT" "1"]) = some IR.vnone :=
  ⟨claim_C9_values_silent_fallthrough.1 "values" "foo" [.token "NAME" "x"] [] (by decide),
   claim_C9_values_silent_fallthrough.2 "values" "INT" "1" [] (by decide)⟩

/-- C10: a string literal whose quote-stripped text has no placeholder
occurrence compiles to a dict holding only the discriminator and the
unchanged quote-stripped text; no substitution-values field is present. -/
theorem claim_C10_placeholder_free_string (d tt v : String) (rest : List Tree)
    (h : Objects.findallS (Objects.stripQuotes v) = []) :
    Objects.string (.node d (.token tt v :: rest)) =
      some (.vdict [("$OBJECT", .vstr "string"),
                    ("string", .vstr (Objects.stripQuotes v))]) := by
  simp [Objects.string, h]

/-- C10 witness: `'hello'` compiles to the two-field dict. -/
theorem claim_C10_placeholder_free_string_witness :
    Objects.findallS (Objects.stripQuotes "'hello'") = [] ∧
    Objects.string (.node "string" [.token "STR" "'hello'"]) =
      some (.vdict [("$OBJECT", .vstr "string"), ("string", .vstr "hello")]) := by
  have h : Objects.findallS (Objects.stripQuotes "'hello'") = [] := by
    simp [Objects.findallS, Objects.stripQuotes, findall, splitBrace]
  exact ⟨h, claim_C10_placeholder_free_string "string" "STR" "'hello'" [] h⟩

/-- C7: every composite result of the compile operations carries the
reserved `$OBJECT` discriminator naming its variant (`path`, `string`,
`list`, `dict`, `mutation`, `argument`, `expression`, `type`), while
number and boolean compile to bare native values with no wrapper; the
number literal `42` compiles to the bare integer 42. -/
theorem claim_C7_discriminator_invariant :
    (∀ t r, Objects.path t = some r → hasTag r "path") ∧
    (∀ t r, Objects.string t = some r → hasTag r "string") ∧
    (∀ t r, Objects.list t = some r → hasTag r "list") ∧
    (∀ t r, Objects.objects t = some r → hasTag r "dict") ∧
    (∀ t r, Objects.mutation t = some r → hasTag r "mutation") ∧
    (∀ t r, Objects.argument t = some r → hasTag r "argument") ∧
    (∀ t r, Objects.typed_argument t = some r → hasTag r "argument") ∧
    (∀ t r, Objects.types t = some r → hasTag r "type") ∧
    (∀ t r, Objects.expression t = some r →
      hasTag r "expression" ∨ ∃ x, r = IR.vlist [x]) ∧
    (∀ t r, Objects.number t = some r → ∃ n, r = IR.vint n) ∧
    (∀ t r, Objects.boolean t = some r → ∃ b, r = IR.vbool b) ∧
    Objects.number (.node "number" [.token "INT" "42"]) = some (.vint 42) := by
  refine ⟨?_, ?_, ?_, ?_, ?_, ?_, ?_, ?_, ?_, ?_, ?_, rfl⟩
  · intro t r h
    rw [Objects.path] at h
    cases hn : Objects.names t with
    | none => rw [hn] at h; simp at h
    | some ns =>
      rw [hn] at h
      simp only [Option.map_some'] at h
      injection h with h
      subst h
      exact ⟨[("paths", IR.vlist ns)], rfl⟩
  · intro t r h
    rw [Objects.string.eq_def] at h
    split at h
    · dsimp only at h
      split at h
      · injection h with h
        subst h
        exact ⟨_, rfl⟩
      · rw [Option.map_eq_some'] at h
        obtain ⟨vals, _, h⟩ := h
        subst h
        exact ⟨_, rfl⟩
    · simp at h
  · intro t r h
    rw [Objects.list.eq_def] at h
    split at h
    · simp at h
    · rw [Option.map_eq_some'] at h
      obtain ⟨items, _, h⟩ := h
      subst h
      exact ⟨_, rfl⟩
  · intro t r h
    rw [Objects.objects.eq_def] at h
    split at h
    · simp at h
    · rw [Option.map_eq_some'] at h
      obtain ⟨items, _, h⟩ := h
      subst h
      exact ⟨_, rfl⟩
  · intro t r h
    rw [Objects.mutation.eq_def] at h
    split at h
    · simp at h
    · simp at h
    · rw [Option.bind_eq_some] at h
      obtain ⟨args, _, h⟩ := h
      rw [Option.bind_eq_some] at h
      obtain ⟨nm, _, h⟩ := h
      injection h with h
      subst h
      exact ⟨_, rfl⟩
  · intro t r h
    rw [Objects.argument.eq_def] at h
    split at h
    · rw [Option.map_eq_some'] at h
      obtain ⟨v, _, h⟩ := h
      subst h
      exact ⟨_, rfl⟩
    · simp at h
  · intro t r h
    rw [Objects.typed_argument] at h
    split at h
    · rw [Option.map_eq_some'] at h
      obtain ⟨v, _, h⟩ := h
      subst h
      exact ⟨_, rfl⟩
    · simp at h
  · intro t r h
    rw [Objects.types.eq_def] at h
    split at h
    · injection h with h
      subst h
      exact ⟨_, rfl⟩
    · simp at h
  · intro t r h
    rw [Objects.expression] at h
    split at h
    · rw [Option.bind_eq_some] at h
      obtain ⟨op, _, h⟩ := h
      rw [Option.bind_eq_some] at h
      obtain ⟨lhs, _, h⟩ := h
      rw [Option.bind_eq_some] at h
      obtain ⟨c2, _, h⟩ := h
      rw [Option.map_eq_some'] at h
      obtain ⟨rhs, _, h⟩ := h
      subst h
      exact .inl ⟨_, rfl⟩
    · rw [Option.bind_eq_some] at h
      obtain ⟨pv, _, h⟩ := h
      rw [Option.bind_eq_some] at h
      obtain ⟨pv0, _, h⟩ := h
      rw [Option.bind_eq_some] at h
      obtain ⟨lhs, _, h⟩ := h
      split at h
      · injection h with h
        subst h
        exact .inr ⟨_, rfl⟩
      · rw [Option.bind_eq_some] at h
        obtain ⟨c20, _, h⟩ := h
        rw [Option.bind_eq_some] at h
        obtain ⟨rhs, _, h⟩ := h
        rw [Option.map_eq_some'] at h
        obtain ⟨op, _, h⟩ := h
        subst h
        exact .inr ⟨_, rfl⟩
  · intro t r h
    rw [Objects.number.eq_def] at h
    split at h
    · rw [Option.map_eq_some'] at h
      obtain ⟨n, _, h⟩ := h
      subst h
      exact ⟨_, rfl⟩
    · simp at h
  · intro t r h
    rw [Objects.boolean.eq_def] at h
    split at h
    · simp at h
    · split at h
      all_goals (injection h with h; subst h; exact ⟨_, rfl⟩)
    · injection h with h
      subst h
      exact ⟨_, rfl⟩

/-- C7 witness: one concrete instance per operation. -/
theorem claim_C7_discriminator_invariant_witness :
    hasTag (Objects.pathOf [.vstr "x"]) "path" ∧
    hasTag (.vdict [("$OBJECT", .vstr "string"), ("string", .vstr "hi")]) "string" ∧
    hasTag (.vdict [("$OBJECT", .vstr "list"), ("items", .vlist [])]) "list" ∧
    hasTag (.vdict [("$OBJECT", .vstr "dict"), ("items", .vlist [])]) "dict" ∧
    hasTag (.vdict [("$OBJECT", .vstr "mutation"), ("mutation", .vstr "run"),
                    ("arguments", .vlist [])]) "mutation" ∧
    hasTag (.vdict [("$OBJECT", .vstr "argument"), ("name", .vstr "a"),
                    ("argument", .vint 1)]) "argument" ∧
    hasTag (.vdict [("$OBJECT", .vstr "argument"), ("name", .vstr "a"),
                    ("argument", .vdict [("$OBJECT", .vstr "type"),
                                         ("type", .vstr "int")])]) "argument" ∧
    hasTag (.vdict [("$OBJECT", .vstr "type"), ("type", .vstr "int")]) "type" ∧
    (hasTag (.vlist [Objects.pathOf [.vstr "x"]]) "expression" ∨
      ∃ x, (IR.vlist [Objects.pathOf [.vstr "x"]]) = IR.vlist [x]) ∧
    (∃ n, IR.vint 42 = IR.vint n) ∧
    (∃ b, IR.vbool true = IR.vbool b) := by
  obtain ⟨h1, h2, h3, h4, h5, h6, h7, h8, h9, h10, h11, -⟩ :=
    claim_C7_discriminator_invariant
  refine ⟨h1 (.node "path" [.token "NAME" "x"]) _ rfl,
          h2 (.node "string" [.token "STR" "'hi'"]) _ ?_,
          h3 (.node "list" []) _ rfl,
          h4 (.node "objects" []) _ rfl,
          h5 (.node "mutation" [.token "NAME" "run"]) _ rfl,
          h6 (.node "arguments"
               [.token "NAME" "a",
                .node "values" [.node "number" [.token "INT" "1"]]]) _ rfl,
          h7 (.node "function_argument"
               [.node "typed_argument"
                 [.token "NAME" "a", .node "types" [.token "TYPE" "int"]]]) _ rfl,
          h8 (.node "types" [.token "TYPE" "int"]) _ rfl,
          h9 (.node "service"
               [.node "path_value" [.node "path" [.token "NAME" "x"]]]) _ rfl,
          h10 (.node "number" [.token "INT" "42"]) _ rfl,
          h11 (.node "boolean" [.token "NAME" "true"]) _ rfl⟩
  simp [Objects.string, Objects.findallS, Objects.stripQuotes, findall, splitBrace]

/-- The value-compile entry point only looks at the single child of its
container: the container's own tag is irrelevant (for a `NAME` token
child, the resulting path has the one token segment either way). -/
theorem values_single_child (d d' : String) (X : Tree) :
    Objects.values (.node d [X]) = Objects.values (.node d' [X]) := by
  cases X with
  | node k cs => rfl
  | token ty v =>
      by_cases hty : ty = "NAME"
      · simp [Objects.values, hty, Objects.path, Objects.names, Objects.namesFrags]
      · simp [Objects.values, hty]

/-- C8: a typed argument compiles to an `Argument` of the same shape as a
call argument: the name is the `typed_argument` subnode's first child
token text, the value child is wrapped in a synthetic single-child
container routed through `Objects.values`; for the same name and value
child, the call-argument path (whose second child is the container) gives
the identical result. -/
theorem claim_C8_typed_argument_agreement (t : Tree) (td tt n : String) (X : Tree)
    (rest : List Tree)
    (h : t.slot "typed_argument" = some (.node td (.token tt n :: X :: rest)))
    (d₃ tt' d₂ : String) (rest₂ : List Tree) :
    Objects.typed_argument t =
      (Objects.values (.node "anon" [X])).map (fun v =>
        IR.vdict [("$OBJECT", .vstr "argument"), ("name", .vstr n),
                  ("argument", v)]) ∧
    Objects.typed_argument t =
      Objects.argument (.node d₃ (.token tt' n :: .node d₂ [X] :: rest₂)) := by
  have h1 : Objects.typed_argument t =
      (Objects.values (.node "anon" [X])).map (fun v =>
        IR.vdict [("$OBJECT", .vstr "argument"), ("name", .vstr n),
                  ("argument", v)]) := by
    rw [Objects.typed_argument, h]
  refine ⟨h1, ?_⟩
  rw [h1, Objects.argument, values_single_child d₂ "anon" X]

/-- C8 witness: a typed parameter `a: int` and the corresponding call
argument compile to the same `Argument`. -/
theorem claim_C8_typed_argument_agreement_witness :
    Objects.typed_argument
      (.node "function_argument"
        [.node "typed_argument"
          [.token "NAME" "a", .node "types" [.token "TYPE" "int"]]]) =
      Objects.argument
        (.node "arguments"
          [.token "NAME" "a",
           .node "values" [.node "types" [.token "TYPE" "int"]]]) :=
  (claim_C8_typed_argument_agreement
    (.node "function_argument"
      [.node "typed_argument"
        [.token "NAME" "a", .node "types" [.token "TYPE" "int"]]])
    "typed_argument" "NAME" "a" (.node "types" [.token "TYPE" "int"]) []
    rfl "arguments" "NAME" "values" []).2

/-- C4: a mutation's name is the first child token's text unless a
`command` slot is present, in which case the command's first child token
text overrides it; its arguments come from `Objects.arguments` on the
`arguments` slot when present and are empty otherwise. -/
theorem claim_C4_mutation_name_and_arguments (d t0 v0 : String) (rest : List Tree)
    (args : List IR) (nm : String)
    (hargs : match Tree.slot (.node d (.token t0 v0 :: rest)) "arguments" with
             | none => args = []
             | some a => Objects.arguments a = some args)
    (hcmd : match Tree.slot (.node d (.token t0 v0 :: rest)) "command" with
            | none => nm = v0
            | some c => ∃ cd ct cv cc, c = .node cd (.token ct cv :: cc) ∧ nm = cv) :
    Objects.mutation (.node d (.token t0 v0 :: rest)) =
      some (.vdict [("$OBJECT", .vstr "mutation"), ("mutation", .vstr nm),
                    ("arguments", .vlist args)]) := by
  cases hA : Tree.slot (.node d (.token t0 v0 :: rest)) "arguments" with
  | none =>
    simp only [hA] at hargs
    subst hargs
    cases hC : Tree.slot (.node d (.token t0 v0 :: rest)) "command" with
    | none =>
      simp only [hC] at hcmd
      subst hcmd
      simp [Objects.mutation, hA, hC]
    | some c =>
      simp only [hC] at hcmd
      obtain ⟨cd, ct, cv, cc, rfl, rfl⟩ := hcmd
      simp [Objects.mutation, hA, hC]
  | some a =>
    simp only [hA] at hargs
    cases hC : Tree.slot (.node d (.token t0 v0 :: rest)) "command" with
    | none =>
      simp only [hC] at hcmd
      subst hcmd
      simp [Objects.mutation, hA, hC, hargs]
    | some c =>
      simp only [hC] at hcmd
      obtain ⟨cd, ct, cv, cc, rfl, rfl⟩ := hcmd
      simp [Objects.mutation, hA, hC, hargs]

/-- C4 witness: `obj.run(a: 1)` without a command compiles with name
`run`; adding a command child `go` overrides the name. -/
theorem claim_C4_mutation_name_and_arguments_witness :
    Objects.mutation
      (.node "mutation"
        [.token "NAME" "run",
         .node "arguments"
           [.token "NAME" "a",
            .node "values" [.node "number" [.token "INT" "1"]]]]) =
      some (.vdict [("$OBJECT", .vstr "mutation"), ("mutation", .vstr "run"),
        ("arguments",
         .vlist [.vdict [("$OBJECT", .vstr "argument"), ("name", .vstr "a"),
                         ("argument", .vint 1)]])]) ∧
    Objects.mutation
      (.node "service_fragment"
        [.token "NAME" "run",
         .node "command" [.token "NAME" "go"]]) =
      some (.vdict [("$OBJECT", .vstr "mutation"), ("mutation", .vstr "go"),
                    ("arguments", .vlist [])]) := by
  constructor
  · exact claim_C4_mutation_name_and_arguments "mutation" "NAME" "run"
      [.node "arguments"
        [.token "NAME" "a",
         .node "values" [.node "number" [.token "INT" "1"]]]]
      [.vdict [("$OBJECT", .vstr "argument"), ("name", .vstr "a"),
               ("argument", .vint 1)]]
      "run" (by rfl) (by rfl)
  · exact claim_C4_mutation_name_and_arguments "service_fragment" "NAME" "run"
      [.node "command" [.token "NAME" "go"]] [] "go" (by rfl)
      ⟨"command", "NAME", "go", [], rfl, rfl⟩

/-- The fragment loop of `Objects.names` produces one segment per
fragment, in order, each per the `fragSeg` contract. -/
theorem namesFrags_spec (frags : List Tree) (segs : List IR)
    (h : Objects.namesFrags frags = some segs) :
    segs.length = frags.length ∧
    ∀ i (hf : i < frags.length) (hs : i < segs.length),
      fragSeg (frags.get ⟨i, hf⟩) (segs.get ⟨i, hs⟩) := by
  induction frags generalizing segs with
  | nil =>
    simp only [Objects.namesFrags] at h
    injection h with h
    subst h
    exact ⟨rfl, fun i hf _ => absurd hf (by simp)⟩
  | cons f fs ih =>
    cases f with
    | token tt tv => simp [Objects.namesFrags] at h
    | node fd fcs =>
      cases fcs with
      | nil => simp [Objects.namesFrags] at h
      | cons c crest =>
        unfold Objects.namesFrags at h
        rw [Option.bind_eq_some] at h
        obtain ⟨seg, hseg, h⟩ := h
        rw [Option.map_eq_some'] at h
        obtain ⟨rest, hrest, h⟩ := h
        subst h
        obtain ⟨hlen, hpt⟩ := ih rest hrest
        refine ⟨by simp [hlen], ?_⟩
        intro i hf hs
        cases i with
        | zero =>
          show fragSeg (.node fd (c :: crest)) seg
          cases c with
          | token ct w =>
            injection hseg with hseg
            subst hseg
            rfl
          | node cd ccs =>
            dsimp only at hseg
            by_cases h1 : cd = "string"
            · rw [if_pos h1] at hseg
              subst h1
              cases ccs with
              | nil => simp at hseg
              | cons hd tl =>
                cases hd with
                | token qt q =>
                  injection hseg with hseg
                  subst hseg
                  exact Or.inl ⟨rfl, qt, q, tl, rfl, rfl⟩
                | node _ _ => simp at hseg
            · rw [if_neg h1] at hseg
              by_cases h2 : cd = "path"
              · rw [if_pos h2] at hseg
                subst h2
                rw [Option.map_eq_some'] at hseg
                obtain ⟨ns, hns, hseg⟩ := hseg
                subst hseg
                exact Or.inr ⟨rfl, by rw [Objects.path, hns]; rfl⟩
              · rw [if_neg h2] at hseg
                simp at hseg
        | succ j =>
          have hf' : j < fs.length := by simpa using hf
          have hs' : j < rest.length := by simpa using hs
          exact hpt j hf' hs'

/-- C3: a path node resolves to a `Path` whose first segment is the first
child token's text and whose later segments come from the fragments'
inner children per the three grammar shapes; `a.b.c` gives
`Path(["a","b","c"])` and `a["b"]` gives `Path(["a","b"])`. -/
theorem claim_C3_path_resolution :
    (∀ d tt v frags segs, Objects.namesFrags frags = some segs →
      Objects.path (.node d (.token tt v :: frags)) =
        some (Objects.pathOf (.vstr v :: segs)) ∧
      segs.length = frags.length ∧
      ∀ i (hf : i < frags.length) (hs : i < segs.length),
        fragSeg (frags.get ⟨i, hf⟩) (segs.get ⟨i, hs⟩)) ∧
    Objects.path (.node "path"
      [.token "NAME" "a",
       .node "fragment" [.token "NAME" "b"],
       .node "fragment" [.token "NAME" "c"]]) =
      some (Objects.pathOf [.vstr "a", .vstr "b", .vstr "c"]) ∧
    Objects.path (.node "path"
      [.token "NAME" "a",
       .node "fragment" [.node "string" [.token "STR" "\x22b\x22"]]]) =
      some (Objects.pathOf [.vstr "a", .vstr "b"]) := by
  refine ⟨?_, ?_, ?_⟩
  · intro d tt v frags segs h
    obtain ⟨hlen, hpt⟩ := namesFrags_spec frags segs h
    refine ⟨?_, hlen, hpt⟩
    rw [Objects.path]
    simp only [Objects.names, h, Option.map_some']
  · rfl
  · simp [Objects.path, Objects.names, Objects.namesFrags, Objects.stripQuotes]

/-- C3 witness: the general part applied to the fragments of `a.b`. -/
theorem claim_C3_path_resolution_witness :
    Objects.path (.node "path"
      [.token "NAME" "a", .node "fragment" [.token "NAME" "b"]]) =
      some (Objects.pathOf [.vstr "a", .vstr "b"]) :=
  (claim_C3_path_resolution.1 "path" "NAME" "a"
    [.node "fragment" [.token "NAME" "b"]] [.vstr "b"] rfl).1

/-- The item loop of `Objects.list` compiles one value per child, in
order. -/
theorem valuesList_spec (cs : List Tree) (items : List IR)
    (h : Objects.valuesList cs = some items) :
    items.length = cs.length ∧
    ∀ i (hc : i < cs.length) (hi : i < items.length),
      Objects.values (cs.get ⟨i, hc⟩) = some (items.get ⟨i, hi⟩) := by
  induction cs generalizing items with
  | nil =>
    unfold Objects.valuesList at h
    injection h with h
    subst h
    exact ⟨rfl, fun i hc _ => absurd hc (by simp)⟩
  | cons t ts ih =>
    unfold Objects.valuesList at h
    rw [Option.bind_eq_some] at h
    obtain ⟨v, hv, h⟩ := h
    rw [Option.map_eq_some'] at h
    obtain ⟨vs, hvs, h⟩ := h
    subst h
    obtain ⟨hlen, hpt⟩ := ih vs hvs
    refine ⟨by simp [hlen], ?_⟩
    intro i hc hi
    cases i with
    | zero => exact hv
    | succ j =>
      have hc' : j < ts.length := by simpa using hc
      have hi' : j < vs.length := by simpa using hi
      exact hpt j hc' hi'

/-- The entry loop of `Objects.objects` compiles one `[key, value]` pair
per well-formed entry, in order, regardless of the threaded key. -/
theorem objectsItems_spec (cs : List Tree) (lk : Option IR) (items : List IR)
    (hwf : ∀ e ∈ cs, wfEntry e)
    (h : Objects.objectsItems cs lk = some items) :
    items.length = cs.length ∧
    ∀ i (hc : i < cs.length) (hi : i < items.length),
      entrySpec (cs.get ⟨i, hc⟩) (items.get ⟨i, hi⟩) := by
  induction cs generalizing lk items with
  | nil =>
    unfold Objects.objectsItems at h
    injection h with h
    subst h
    exact ⟨rfl, fun i hc _ => absurd hc (by simp)⟩
  | cons e es ih =>
    have hwfe : wfEntry e := hwf e (List.mem_cons_self e es)
    have hwfes : ∀ x ∈ es, wfEntry x := fun x hx => hwf x (List.mem_cons_of_mem e hx)
    cases e with
    | token _ _ => exact absurd hwfe (by simp [wfEntry])
    | node ed ecs =>
      cases ecs with
      | nil => exact absurd hwfe (by simp [wfEntry])
      | cons kc krest =>
        cases kc with
        | token _ _ => exact absurd hwfe (by simp [wfEntry])
        | node kd kcs =>
          cases krest with
          | nil => exact absurd hwfe (by simp [wfEntry])
          | cons vc vrest =>
            have hkd : kd = "string" ∨ kd = "path" := by
              simpa [wfEntry] using hwfe
            unfold Objects.objectsItems at h
            rw [Option.bind_eq_some] at h
            obtain ⟨key, hkey, h⟩ := h
            rw [Option.bind_eq_some] at h
            obtain ⟨v, hv, h⟩ := h
            rw [Option.map_eq_some'] at h
            obtain ⟨rest, hrest, h⟩ := h
            subst h
            obtain ⟨hlen, hpt⟩ := ih (some key) rest hwfes hrest
            refine ⟨by simp [hlen], ?_⟩
            intro i hc hi
            cases i with
            | zero =>
              show entrySpec (.node ed (.node kd kcs :: vc :: vrest))
                (IR.vlist [key, v])
              unfold Objects.keyOf at hkey
              dsimp only at hkey
              cases hkd with
              | inl h1 =>
                rw [if_pos h1] at hkey
                exact Or.inl ⟨h1, key, v, h1 ▸ hkey, hv, rfl⟩
              | inr h2 =>
                have h1 : kd ≠ "string" := by rw [h2]; decide
                rw [if_neg h1, if_pos h2] at hkey
                exact Or.inr ⟨h2, key, v, h2 ▸ hkey, hv, rfl⟩
            | succ j =>
              have hc' : j < es.length := by simpa using hc
              have hi' : j < rest.length := by simpa using hi
              exact hpt j hc' hi'

/-- C6: a list node with N children compiles to a `ListLiteral` with
exactly N items, each the compiled value of the corresponding child, in
source order; a dict node with M well-formed entries compiles to a
`DictLiteral` with exactly M `[key, value]` pairs in declaration order,
duplicates preserved, keys compiled as string literals for quoted-string
key nodes and resolved as paths otherwise, values compiled recursively. -/
theorem claim_C6_composite_order_multiplicity :
    (∀ d cs items, Objects.valuesList cs = some items →
      Objects.list (.node d cs) =
        some (.vdict [("$OBJECT", .vstr "list"), ("items", .vlist items)]) ∧
      items.length = cs.length ∧
      ∀ i (hc : i < cs.length) (hi : i < items.length),
        Objects.values (cs.get ⟨i, hc⟩) = some (items.get ⟨i, hi⟩)) ∧
    (∀ d cs r, (∀ e ∈ cs, wfEntry e) → Objects.objects (.node d cs) = some r →
      ∃ items, r = .vdict [("$OBJECT", .vstr "dict"), ("items", .vlist items)] ∧
        items.length = cs.length ∧
        ∀ i (hc : i < cs.length) (hi : i < items.length),
          entrySpec (cs.get ⟨i, hc⟩) (items.get ⟨i, hi⟩)) := by
  constructor
  · intro d cs items h
    obtain ⟨hlen, hpt⟩ := valuesList_spec cs items h
    refine ⟨?_, hlen, hpt⟩
    unfold Objects.list
    rw [h]
    rfl
  · intro d cs r hwf h
    unfold Objects.objects at h
    rw [Option.map_eq_some'] at h
    obtain ⟨items, hitems, h⟩ := h
    subst h
    obtain ⟨hlen, hpt⟩ := objectsItems_spec cs none items hwf hitems
    exact ⟨items, rfl, hlen, hpt⟩

/-- C6 witness: the two-element list `[1, true]` and the one-entry dict
`\x7b"k": 1\x7d`. -/
theorem claim_C6_composite_order_multiplicity_witness :
    Objects.list (.node "list"
      [.node "values" [.node "number" [.token "INT" "1"]],
       .node "values" [.node "boolean" [.token "NAME" "true"]]]) =
      some (.vdict [("$OBJECT", .vstr "list"),
                    ("items", .vlist [.vint 1, .vbool true])]) ∧
    (∃ items,
      IR.vdict [("$OBJECT", .vstr "dict"),
                ("items", .vlist [.vlist
                  [.vdict [("$OBJECT", .vstr "string"), ("string", .vstr "k")],
                   .vint 1]])] =
        .vdict [("$OBJECT", .vstr "dict"), ("items", .vlist items)] ∧
      items.length = 1 ∧
      ∀ i (hc : i < ([.node "key_value_pair"
            [.node "string" [.token "STR" "'k'"],
             .node "values" [.node "number" [.token "INT" "1"]]]] : List Tree).length)
          (hi : i < items.length),
        entrySpec (([.node "key_value_pair"
            [.node "string" [.token "STR" "'k'"],
             .node "values" [.node "number" [.token "INT" "1"]]]] : List Tree).get
            ⟨i, hc⟩)
          (items.get ⟨i, hi⟩)) := by
  constructor
  · exact (claim_C6_composite_order_multiplicity.1 "list"
      [.node "values" [.node "number" [.token "INT" "1"]],
       .node "values" [.node "boolean" [.token "NAME" "true"]]]
      [.vint 1, .vbool true] rfl).1
  · exact claim_C6_composite_order_multiplicity.2 "objects"
      [.node "key_value_pair"
        [.node "string" [.token "STR" "'k'"],
         .node "values" [.node "number" [.token "INT" "1"]]]]
      (.vdict [("$OBJECT", .vstr "dict"),
               ("items", .vlist [.vlist
                 [.vdict [("$OBJECT", .vstr "string"), ("string", .vstr "k")],
                  .vint 1]])])
      (by intro e he; simp at he; subst he; simp [wfEntry])
      (by simp [Objects.objects, Objects.objectsItems, Objects.keyOf,
                Objects.string, Objects.findallS, Objects.stripQuotes, findall,
                splitBrace, Objects.values, Objects.number, Objects.pyInt,
                Objects.digitsVal])

/-- C2: with explicit `values`/`operator` slots, `Objects.expression`
returns a single `Expression` dict (not wrapped in a sequence) whose
template splices the operator between two positional markers; with a
`path_value` slot and no second child it returns a one-element sequence
holding the bare compiled left value; with a comparison present it
returns a one-element sequence holding the `Expression` built from the
comparison operator and the two compiled operands. -/
theorem claim_C2_expression_return_shapes :
    (∀ (t : Tree) vs od ot op orest lhs c2 rhs,
      t.slot "values" = some vs →
      t.slot "operator" = some (.node od (.token ot op :: orest)) →
      Objects.values vs = some lhs →
      t.childN 2 = some c2 →
      Objects.values c2 = some rhs →
      Objects.expression t =
        some (.vdict [("$OBJECT", .vstr "expression"),
          ("expression", .vstr (Objects.fill_expression "\x7b\x7d" op "\x7b\x7d")),
          ("values", .vlist [lhs, rhs])])) ∧
    (∀ (t : Tree) pv pv0 lhs,
      t.slot "values" = none →
      t.slot "path_value" = some pv →
      pv.childN 0 = some pv0 →
      Objects.values pv0 = some lhs →
      t.childN 1 = none →
      Objects.expression t = some (.vlist [lhs])) ∧
    (∀ (t : Tree) pv pv0 lhs cd ct op crest c2 c20 rhs,
      t.slot "values" = none →
      t.slot "path_value" = some pv →
      pv.childN 0 = some pv0 →
      Objects.values pv0 = some lhs →
      t.childN 1 = some (.node cd (.token ct op :: crest)) →
      t.childN 2 = some c2 →
      c2.childN 0 = some c20 →
      Objects.values c20 = some rhs →
      Objects.expression t =
        some (.vlist [.vdict [("$OBJECT", .vstr "expression"),
          ("expression", .vstr (Objects.fill_expression "\x7b\x7d" op "\x7b\x7d")),
          ("values", .vlist [lhs, rhs])]])) := by
  refine ⟨?_, ?_, ?_⟩
  · intro t vs od ot op orest lhs c2 rhs hvs hop hlhs hc2 hrhs
    simp only [Objects.expression, hvs, hop, hlhs, hc2, hrhs,
      Option.some_bind, Option.map_some']
  · intro t pv pv0 lhs hvs hpv hpv0 hlhs h1
    simp only [Objects.expression, hvs, hpv, hpv0, hlhs, h1,
      Option.some_bind, Option.map_some']
  · intro t pv pv0 lhs cd ct op crest c2 c20 rhs hvs hpv hpv0 hlhs h1 hc2 hc20 hrhs
    simp only [Objects.expression, hvs, hpv, hpv0, hlhs, h1, hc2, hc20, hrhs,
      Option.some_bind, Option.map_some']

/-- C2 witness: `1 + 2` in the general binary form, a bare `x`, and the
comparison `x > 3` compiling to
`Expression(template "\x7b\x7d > \x7b\x7d", operands [Path(["x"]), 3])`. -/
theorem claim_C2_expression_return_shapes_witness :
    Objects.expression (.node "expression"
      [.node "values" [.node "number" [.token "INT" "1"]],
       .node "operator" [.token "PLUS" "+"],
       .node "v2" [.node "number" [.token "INT" "2"]]]) =
      some (.vdict [("$OBJECT", .vstr "expression"),
        ("expression", .vstr "\x7b\x7d + \x7b\x7d"),
        ("values", .vlist [.vint 1, .vint 2])]) ∧
    Objects.expression (.node "service"
      [.node "path_value" [.node "path" [.token "NAME" "x"]]]) =
      some (.vlist [Objects.pathOf [.vstr "x"]]) ∧
    Objects.expression (.node "service"
      [.node "path_value" [.node "path" [.token "NAME" "x"]],
       .node "comparison" [.token "GREATER" ">"],
       .node "rhs" [.node "v" [.node "number" [.token "INT" "3"]]]]) =
      some (.vlist [.vdict [("$OBJECT", .vstr "expression"),
        ("expression", .vstr "\x7b\x7d > \x7b\x7d"),
        ("values", .vlist [Objects.pathOf [.vstr "x"], .vint 3])]]) := by
  refine ⟨?_, ?_, ?_⟩
  · have h := claim_C2_expression_return_shapes.1 (.node "expression"
      [.node "values" [.node "number" [.token "INT" "1"]],
       .node "operator" [.token "PLUS" "+"],
       .node "v2" [.node "number" [.token "INT" "2"]]])
      (.node "values" [.node "number" [.token "INT" "1"]])
      "operator" "PLUS" "+" [] (.vint 1)
      (.node "v2" [.node "number" [.token "INT" "2"]]) (.vint 2)
      rfl rfl rfl rfl rfl
    rw [h]
    rfl
  · exact claim_C2_expression_return_shapes.2.1 (.node "service"
      [.node "path_value" [.node "path" [.token "NAME" "x"]]])
      (.node "path_value" [.node "path" [.token "NAME" "x"]])
      (.node "path" [.token "NAME" "x"]) (Objects.pathOf [.vstr "x"])
      rfl rfl rfl rfl rfl
  · have h := claim_C2_expression_return_shapes.2.2 (.node "service"
      [.node "path_value" [.node "path" [.token "NAME" "x"]],
       .node "comparison" [.token "GREATER" ">"],
       .node "rhs" [.node "v" [.node "number" [.token "INT" "3"]]]])
      (.node "path_value" [.node "path" [.token "NAME" "x"]])
      (.node "path" [.token "NAME" "x"]) (Objects.pathOf [.vstr "x"])
      "comparison" "GREATER" ">" []
      (.node "rhs" [.node "v" [.node "number" [.token "INT" "3"]]])
      (.node "v" [.node "number" [.token "INT" "3"]]) (.vint 3)
      rfl rfl rfl rfl rfl rfl rfl rfl
    rw [h]
    rfl

/-! ### Claim C1: the segment decomposition of a template source -/

theorem flatSegs_map_ch (cs : List Char) : flatSegs (cs.map .ch) = cs := by
  induction cs with
  | nil => rfl
  | cons c rest ih => simp [flatSegs, ih]

theorem tmplSegs_map_ch (cs : List Char) : tmplSegs (cs.map .ch) = cs := by
  induction cs with
  | nil => rfl
  | cons c rest ih => simp [tmplSegs, ih]

theorem phsSegs_map_ch (cs : List Char) : phsSegs (cs.map .ch) = [] := by
  induction cs with
  | nil => rfl
  | cons c rest ih => simp [phsSegs, ih]

theorem findall_open_some {rest i r} (h : splitBrace rest = some (i, r)) :
    findall ('{' :: rest) = i :: findall r := by
  simp [findall]
  split
  · rename_i i2 r2 heq
    rw [h] at heq
    injection heq with heq
    injection heq with h1 h2
    subst h1
    subst h2
    rfl
  · rename_i heq
    rw [h] at heq
    simp at heq

theorem findall_open_none {rest} (h : splitBrace rest = none) :
    findall ('{' :: rest) = [] := by
  simp [findall]
  split
  · rename_i i2 r2 heq
    rw [h] at heq
    simp at heq
  · rfl

theorem findall_ch {c rest} (h : c ≠ '{') :
    findall (c :: rest) = findall rest := by
  simp [findall, h]

theorem reo_open_some {rest i r} (h : splitBrace rest = some (i, r)) :
    replaceEachOccurrence ('{' :: rest) =
      '{' :: '}' :: replaceEachOccurrence r := by
  simp [replaceEachOccurrence]
  split
  · rename_i i2 r2 heq
    rw [h] at heq
    injection heq with heq
    injection heq with h1 h2
    subst h2
    rfl
  · rename_i heq
    rw [h] at heq
    simp at heq

theorem reo_open_none {rest} (h : splitBrace rest = none) :
    replaceEachOccurrence ('{' :: rest) = '{' :: rest := by
  simp [replaceEachOccurrence]
  split
  · rename_i i2 r2 heq
    rw [h] at heq
    simp at heq
  · rfl

theorem reo_ch {c rest} (h : c ≠ '{') :
    replaceEachOccurrence (c :: rest) = c :: replaceEachOccurrence rest := by
  simp [replaceEachOccurrence, h]

theorem parseSegs_open_some {rest i r} (h : splitBrace rest = some (i, r)) :
    parseSegs ('{' :: rest) = .ph i :: parseSegs r := by
  simp [parseSegs]
  split
  · rename_i i2 r2 heq
    rw [h] at heq
    injection heq with heq
    injection heq with h1 h2
    subst h1
    subst h2
    rfl
  · rename_i heq
    rw [h] at heq
    simp at heq

theorem parseSegs_open_none {rest} (h : splitBrace rest = none) :
    parseSegs ('{' :: rest) = ('{' :: rest).map .ch := by
  simp [parseSegs]
  split
  · rename_i i2 r2 heq
    rw [h] at heq
    simp at heq
  · rfl

theorem parseSegs_ch {c rest} (h : c ≠ '{') :
    parseSegs (c :: rest) = .ch c :: parseSegs rest := by
  simp [parseSegs, h]

/-- Induction along the regex scan: a property holds of every text if it
holds of the empty text, propagates across a matched placeholder, holds of
an unclosed-tail text, and propagates across an ordinary character. -/
theorem scanInduction (P : List Char → Prop)
    (h0 : P [])
    (h1 : ∀ rest i r, splitBrace rest = some (i, r) → P r → P ('{' :: rest))
    (h2 : ∀ rest, splitBrace rest = none → P ('{' :: rest))
    (h3 : ∀ c rest, c ≠ '{' → P rest → P (c :: rest)) :
    ∀ l, P l := by
  have key : ∀ n (l : List Char), l.length ≤ n → P l := by
    intro n
    induction n with
    | zero =>
      intro l hl
      have : l = [] := List.length_eq_zero.mp (Nat.le_zero.mp hl)
      rw [this]
      exact h0
    | succ n ih =>
      intro l hl
      match l with
      | [] => exact h0
      | c :: rest =>
        by_cases hc : c = '{'
        · subst hc
          cases hsb : splitBrace rest with
          | some p =>
            refine h1 rest p.1 p.2 (by rw [hsb]) (ih p.2 ?_)
            have hlt : p.2.length < rest.length := splitBrace_length (by rw [hsb])
            simp at hl
            omega
          | none => exact h2 rest hsb
        · refine h3 c rest hc (ih rest ?_)
          simp at hl
          omega
  exact fun l => key l.length l (le_refl _)

theorem parseSegs_nil : parseSegs [] = [] := by
  simp [parseSegs]

theorem parseSegs_flat : ∀ l, flatSegs (parseSegs l) = l := by
  refine scanInduction (fun l => flatSegs (parseSegs l) = l) ?_ ?_ ?_ ?_
  · show flatSegs (parseSegs []) = []
    rw [parseSegs_nil]
    rfl
  · intro rest i r hsb ih
    rw [parseSegs_open_some hsb, flatSegs, ih]
    rw [(splitBrace_some hsb).1]
  · intro rest hsb
    rw [parseSegs_open_none hsb, flatSegs_map_ch]
  · intro c rest hc ih
    rw [parseSegs_ch hc, flatSegs, ih]

theorem parseSegs_phs : ∀ l, phsSegs (parseSegs l) = findall l := by
  refine scanInduction (fun l => phsSegs (parseSegs l) = findall l) ?_ ?_ ?_ ?_
  · show phsSegs (parseSegs []) = findall []
    rw [parseSegs_nil]
    simp [phsSegs, findall]
  · intro rest i r hsb ih
    rw [parseSegs_open_some hsb, phsSegs, ih, findall_open_some hsb]
  · intro rest hsb
    rw [parseSegs_open_none hsb, phsSegs_map_ch, findall_open_none hsb]
  · intro c rest hc ih
    rw [parseSegs_ch hc, phsSegs, ih, findall_ch hc]

theorem parseSegs_tmpl : ∀ l, tmplSegs (parseSegs l) = replaceEachOccurrence l := by
  refine scanInduction
    (fun l => tmplSegs (parseSegs l) = replaceEachOccurrence l) ?_ ?_ ?_ ?_
  · show tmplSegs (parseSegs []) = replaceEachOccurrence []
    rw [parseSegs_nil]
    simp [tmplSegs, replaceEachOccurrence]
  · intro rest i r hsb ih
    rw [parseSegs_open_some hsb, tmplSegs, ih, reo_open_some hsb]
  · intro rest hsb
    rw [parseSegs_open_none hsb, tmplSegs_map_ch, reo_open_none hsb]
  · intro c rest hc ih
    rw [parseSegs_ch hc, tmplSegs, ih, reo_ch hc]

theorem parseSegs_good : ∀ l, GoodSegs (parseSegs l) := by
  refine scanInduction (fun l => GoodSegs (parseSegs l)) ?_ ?_ ?_ ?_
  · show GoodSegs (parseSegs [])
    rw [parseSegs_nil]
    exact GoodSegs.nil
  · intro rest i r hsb ih
    rw [parseSegs_open_some hsb]
    exact GoodSegs.ph i _ (splitBrace_some hsb).2 ih
  · intro rest hsb
    rw [parseSegs_open_none hsb]
    refine GoodSegs.tail _ ?_
    intro hm
    rcases List.mem_cons.mp hm with h | h
    · exact absurd h.symm (by decide)
    · exact splitBrace_none hsb h
  · intro c rest hc ih
    rw [parseSegs_ch hc]
    exact GoodSegs.ch c _ hc ih

/-! ### Claim C1: how `str.replace` acts on a decomposed text -/

theorem replaceAll_nil (pat repl : List Char) : replaceAll [] pat repl = [] := by
  unfold replaceAll
  rfl

theorem replaceAll_step_no {c : Char} {rest pat repl : List Char}
    (h : ¬ pat.isPrefixOf (c :: rest)) :
    replaceAll (c :: rest) pat repl = c :: replaceAll rest pat repl := by
  conv_lhs => unfold replaceAll
  rw [dif_neg (fun hand => h hand.2)]

theorem replaceAll_prefix {s : List Char} (pat repl : List Char) (hp : pat ≠ []) :
    replaceAll (pat ++ s) pat repl = repl ++ replaceAll s pat repl := by
  cases pat with
  | nil => exact absurd rfl hp
  | cons q qs =>
    have hpre : (q :: qs).isPrefixOf (q :: (qs ++ s)) := by
      rw [List.isPrefixOf_iff_prefix]
      exact ⟨s, by simp⟩
    show replaceAll (q :: (qs ++ s)) (q :: qs) repl = _
    conv_lhs => unfold replaceAll
    rw [dif_pos ⟨hp, hpre⟩]
    have hd : (q :: (qs ++ s)).drop (q :: qs).length = s :=
      List.drop_left (q :: qs) s
    rw [hd]

theorem replaceAll_no_close {s pat repl : List Char} (hs : '}' ∉ s)
    (hp : '}' ∈ pat) : replaceAll s pat repl = s := by
  induction s with
  | nil => exact replaceAll_nil pat repl
  | cons c rest ih =>
    have hnp : ¬ pat.isPrefixOf (c :: rest) := by
      intro hpre
      exact hs ((List.isPrefixOf_iff_prefix.mp hpre).subset hp)
    rw [replaceAll_step_no hnp, ih (fun hm => hs (List.mem_cons_of_mem c hm))]

theorem replaceAll_skip {xs ys p repl : List Char} (hxs : '{' ∉ xs) :
    replaceAll (xs ++ ys) ('{' :: p) repl =
      xs ++ replaceAll ys ('{' :: p) repl := by
  induction xs with
  | nil => simp
  | cons c rest ih =>
    have hc : c ≠ '{' := fun h => hxs (h ▸ List.mem_cons_self c rest)
    have hnp : ¬ ('{' :: p).isPrefixOf (c :: (rest ++ ys)) := by
      intro hpre
      rw [List.isPrefixOf_iff_prefix] at hpre
      exact hc (List.cons_prefix_cons.mp hpre).1.symm
    rw [List.cons_append, replaceAll_step_no hnp,
        ih (fun hm => hxs (List.mem_cons_of_mem c hm))]
    rfl

/-- Two brace-free payloads followed by their closing brace can only align
as prefixes when they are equal. -/
theorem not_prefix_mismatch {m p tail : List Char} (hm : '}' ∉ m) (hp : '}' ∉ p)
    (hne : p ≠ m) : ¬ (m ++ ['}']) <+: (p ++ '}' :: tail) := by
  induction m generalizing p with
  | nil =>
    cases p with
    | nil => exact absurd rfl hne
    | cons q p' =>
      intro hpre
      rw [List.nil_append, List.cons_append] at hpre
      have := (List.cons_prefix_cons.mp hpre).1
      exact hp (this ▸ List.mem_cons_self q p')
  | cons a m' ih =>
    cases p with
    | nil =>
      intro hpre
      rw [List.nil_append, List.cons_append] at hpre
      have := (List.cons_prefix_cons.mp hpre).1
      exact hm (this ▸ List.mem_cons_self a m')
    | cons b p' =>
      intro hpre
      rw [List.cons_append, List.cons_append] at hpre
      obtain ⟨hab, hpre'⟩ := List.cons_prefix_cons.mp hpre
      subst hab
      have hne' : p' ≠ m' := fun h => hne (by rw [h])
      exact ih (fun hmm => hm (List.mem_cons_of_mem a hmm))
        (fun hpp => hp (List.mem_cons_of_mem a hpp)) hne' hpre'

/-- One `str.replace` pass over a decomposed text with a brace-free match:
exactly the placeholders whose payload equals the match are emptied;
nothing else changes. -/
theorem replaceAll_flat (m : List Char) (hm1 : '}' ∉ m) (hm2 : '{' ∉ m) :
    ∀ segs, GoodSegs segs → (∀ p ∈ phsSegs segs, '{' ∉ p) →
    replaceAll (flatSegs segs) ('{' :: (m ++ ['}'])) ['{', '}'] =
      flatSegs (segs.map (setSeg m)) := by
  intro segs hg
  induction hg with
  | nil =>
    intro _
    exact replaceAll_nil _ _
  | tail cs hcs =>
    intro _
    have hmap : (cs.map Seg.ch).map (setSeg m) = cs.map Seg.ch := by
      rw [List.map_map]
      rfl
    rw [flatSegs_map_ch, hmap, flatSegs_map_ch]
    exact replaceAll_no_close hcs (by simp)
  | ch c segs hc hg ih =>
    intro hps
    have hps' : ∀ p ∈ phsSegs segs, '{' ∉ p := by
      intro p hp
      exact hps p (by simpa [phsSegs] using hp)
    have hstep : ¬ ('{' :: (m ++ ['}'])).isPrefixOf (c :: flatSegs segs) := by
      intro hpre
      rw [List.isPrefixOf_iff_prefix] at hpre
      exact hc (List.cons_prefix_cons.mp hpre).1.symm
    show replaceAll (c :: flatSegs segs) _ _ = _
    rw [replaceAll_step_no hstep, ih hps']
    rfl
  | ph p segs hpc hg ih =>
    intro hps
    have hpin : '{' ∉ p := hps p (by simp [phsSegs])
    have hps' : ∀ q ∈ phsSegs segs, '{' ∉ q := by
      intro q hq
      exact hps q (by simp [phsSegs, hq])
    by_cases hpm : p = m
    · subst hpm
      have hflat : flatSegs (Seg.ph p :: segs) =
          ('{' :: (p ++ ['}'])) ++ flatSegs segs := by
        simp [flatSegs]
      rw [hflat, replaceAll_prefix _ _ (by simp), ih hps']
      simp [setSeg, flatSegs]
    · show replaceAll ('{' :: (p ++ '}' :: flatSegs segs)) _ _ = _
      have hstep : ¬ ('{' :: (m ++ ['}'])).isPrefixOf
          ('{' :: (p ++ '}' :: flatSegs segs)) := by
        intro hpre
        rw [List.isPrefixOf_iff_prefix] at hpre
        exact not_prefix_mismatch hm1 hpc hpm (List.cons_prefix_cons.mp hpre).2
      rw [replaceAll_step_no hstep, replaceAll_skip hpin]
      have hstep2 : ¬ ('{' :: (m ++ ['}'])).isPrefixOf ('}' :: flatSegs segs) := by
        intro hpre
        rw [List.isPrefixOf_iff_prefix] at hpre
        exact absurd (List.cons_prefix_cons.mp hpre).1 (by decide)
      rw [replaceAll_step_no hstep2, ih hps']
      simp [setSeg, hpm, flatSegs]

theorem setSeg_good {m : List Char} (hm : '}' ∉ m) :
    ∀ {segs}, GoodSegs segs → GoodSegs (segs.map (setSeg m)) := by
  intro segs hg
  induction hg with
  | nil => exact GoodSegs.nil
  | tail cs hcs =>
    have hmap : (cs.map Seg.ch).map (setSeg m) = cs.map Seg.ch := by
      rw [List.map_map]
      rfl
    rw [hmap]
    exact GoodSegs.tail cs hcs
  | ch c segs hc hg ih =>
    exact GoodSegs.ch c _ hc ih
  | ph p segs hpc hg ih =>
    show GoodSegs (setSeg m (.ph p) :: _)
    by_cases hpm : p = m
    · simp only [setSeg, if_pos hpm]
      exact GoodSegs.ph [] _ (by simp) ih
    · simp only [setSeg, if_neg hpm]
      exact GoodSegs.ph p _ hpc ih

theorem setSeg_phs (m : List Char) (segs : List Seg) :
    phsSegs (segs.map (setSeg m)) =
      (phsSegs segs).map (fun p => if p = m then [] else p) := by
  induction segs with
  | nil => rfl
  | cons s rest ih =>
    cases s with
    | ch c => simpa [setSeg, phsSegs] using ih
    | ph p =>
      by_cases hpm : p = m
      · simp [setSeg, phsSegs, hpm, ih]
      · simp [setSeg, phsSegs, hpm, ih]

theorem good_phs_no_close : ∀ {segs}, GoodSegs segs →
    ∀ p ∈ phsSegs segs, '}' ∉ p := by
  intro segs hg
  induction hg with
  | nil =>
    intro p hp
    simp [phsSegs] at hp
  | tail cs hcs =>
    intro p hp
    rw [phsSegs_map_ch] at hp
    simp at hp
  | ch c segs hc hg ih =>
    intro p hp
    exact ih p (by simpa [phsSegs] using hp)
  | ph q segs hq hg ih =>
    intro p hp
    rcases (by simpa [phsSegs] using hp : p = q ∨ p ∈ phsSegs segs) with h | h
    · rw [h]; exact hq
    · exact ih p h

/-- Folding the replacement over a match list, at decomposition level. -/
theorem fold_replace_flat (ms : List (List Char)) :
    ∀ segs, GoodSegs segs → (∀ p ∈ phsSegs segs, '{' ∉ p) →
    (∀ m ∈ ms, '}' ∉ m ∧ '{' ∉ m) →
    ms.foldl (fun acc m => replaceAll acc ('{' :: (m ++ ['}'])) ['{', '}'])
      (flatSegs segs) =
      flatSegs (ms.foldl (fun acc m => acc.map (setSeg m)) segs) := by
  induction ms with
  | nil =>
    intro segs _ _ _
    rfl
  | cons m ms ih =>
    intro segs hg hps hms
    rw [List.foldl_cons, List.foldl_cons,
        replaceAll_flat m (hms m (by simp)).1 (hms m (by simp)).2 segs hg hps]
    refine ih _ (setSeg_good (hms m (by simp)).1 hg) ?_
      (fun m' hm' => hms m' (by simp [hm']))
    intro p hp
    rw [setSeg_phs] at hp
    obtain ⟨q, hq, hqe⟩ := List.mem_map.mp hp
    by_cases h : q = m
    · rw [if_pos h] at hqe
      subst hqe
      simp
    · rw [if_neg h] at hqe
      subst hqe
      exact hps q hq

/-- The fold of payload-emptying maps is itself a single map. -/
theorem fold_set_map (ms : List (List Char)) :
    ∀ segs : List Seg, ms.foldl (fun acc m => acc.map (setSeg m)) segs =
      segs.map (fun s => match s with
        | .ph p => if p ∈ ms then .ph [] else .ph p
        | .ch c => .ch c) := by
  induction ms with
  | nil =>
    intro segs
    show segs = _
    induction segs with
    | nil => rfl
    | cons s rest ihs =>
      rw [List.map_cons, ← ihs]
      cases s with
      | ch c => rfl
      | ph p => simp
  | cons m ms ih =>
    intro segs
    rw [List.foldl_cons, ih, List.map_map]
    apply List.map_congr_left
    intro s _
    cases s with
    | ch c => rfl
    | ph p =>
      show (match setSeg m (.ph p) with
        | Seg.ph q => if q ∈ ms then Seg.ph [] else Seg.ph q
        | Seg.ch c => Seg.ch c) = _
      by_cases hpm : p = m
      · simp only [setSeg, if_pos hpm]
        have hmem : p ∈ m :: ms := by simp [hpm]
        by_cases h0 : ([] : List Char) ∈ ms
        · simp [h0, hmem]
        · simp [h0, hmem]
      · simp only [setSeg, if_neg hpm]
        have : (p ∈ m :: ms) = (p ∈ ms) := by
          simp [List.mem_cons, hpm]
        simp [this]

/-- When every payload is in the match list, the fold empties all
placeholders, producing exactly the template. -/
theorem map_setMany_tmpl (ms : List (List Char)) :
    ∀ segs, (∀ p ∈ phsSegs segs, p ∈ ms) →
    flatSegs (segs.map (fun s => match s with
      | .ph p => if p ∈ ms then .ph [] else .ph p
      | .ch c => .ch c)) = tmplSegs segs := by
  intro segs
  induction segs with
  | nil =>
    intro _
    rfl
  | cons s rest ih =>
    intro hall
    cases s with
    | ch c =>
      show flatSegs (Seg.ch c :: _) = _
      rw [flatSegs, tmplSegs, ih (fun p hp => hall p (by simp [phsSegs, hp]))]
    | ph p =>
      have hpm : p ∈ ms := hall p (by simp [phsSegs])
      show flatSegs ((if p ∈ ms then Seg.ph [] else Seg.ph p) :: _) = _
      rw [if_pos hpm, flatSegs, tmplSegs,
          ih (fun q hq => hall q (by simp [phsSegs, hq]))]
      rfl

theorem fillMarkers_empty_subs : ∀ xs : List Char, fillMarkers xs [] = xs := by
  intro xs
  induction xs with
  | nil =>
    unfold fillMarkers
    rfl
  | cons c rest ih =>
    conv_lhs => unfold fillMarkers
    by_cases hc : c = '{'
    · rw [if_pos hc]
      cases rest with
      | nil =>
        show c :: fillMarkers [] [] = [c]
        rw [ih]
      | cons c2 rest2 =>
        show c :: fillMarkers (c2 :: rest2) [] = _
        rw [ih]
    · rw [if_neg hc, ih]

theorem fillMarkers_marker {rest : List Char} {s : List Char}
    {ss : List (List Char)} :
    fillMarkers ('{' :: '}' :: rest) (s :: ss) = s ++ fillMarkers rest ss := by
  conv_lhs => unfold fillMarkers
  rfl

theorem fillMarkers_ch {c : Char} {rest : List Char} {subs : List (List Char)}
    (hc : c ≠ '{') :
    fillMarkers (c :: rest) subs = c :: fillMarkers rest subs := by
  conv_lhs => unfold fillMarkers
  rw [if_neg hc]

/-- Refilling the markers of a decomposed template with the braced
placeholder texts restores the source text. -/
theorem fill_tmpl : ∀ segs, GoodSegs segs →
    fillMarkers (tmplSegs segs)
      ((phsSegs segs).map (fun m => '{' :: (m ++ ['}']))) = flatSegs segs := by
  intro segs hg
  induction hg with
  | nil =>
    show fillMarkers [] _ = _
    unfold fillMarkers
    rfl
  | tail cs hcs =>
    rw [tmplSegs_map_ch, phsSegs_map_ch, flatSegs_map_ch]
    exact fillMarkers_empty_subs cs
  | ch c segs hc hg ih =>
    show fillMarkers (c :: tmplSegs segs) _ = c :: flatSegs segs
    rw [fillMarkers_ch hc]
    rw [show phsSegs (Seg.ch c :: segs) = phsSegs segs from rfl] at *
    rw [ih]
  | ph m segs hm hg ih =>
    show fillMarkers ('{' :: '}' :: tmplSegs segs)
      (('{' :: (m ++ ['}'])) :: (phsSegs segs).map (fun q => '{' :: (q ++ ['}']))) =
      '{' :: (m ++ '}' :: flatSegs segs)
    rw [fillMarkers_marker, ih]
    simp

/-- Character-level main result for claim C1: when no placeholder capture
contains an opening brace, the compiler's sequential global replacement
equals the one-pass per-occurrence replacement, and refilling the markers
with the braced placeholder texts restores the source text. -/
theorem replace_placeholders_char (l : List Char)
    (h : ∀ m ∈ findall l, '{' ∉ m) :
    (findall l).foldl
        (fun acc m => replaceAll acc ('{' :: (m ++ ['}'])) ['{', '}']) l =
      replaceEachOccurrence l ∧
    fillMarkers (replaceEachOccurrence l)
        ((findall l).map (fun m => '{' :: (m ++ ['}']))) = l := by
  have hg := parseSegs_good l
  have hphs := parseSegs_phs l
  have hflat := parseSegs_flat l
  have htmpl := parseSegs_tmpl l
  have hps : ∀ p ∈ phsSegs (parseSegs l), '{' ∉ p := by
    intro p hp
    rw [hphs] at hp
    exact h p hp
  have hms : ∀ m ∈ findall l, '}' ∉ m ∧ '{' ∉ m := by
    intro m hm
    refine ⟨?_, h m hm⟩
    exact good_phs_no_close hg m (by rw [hphs]; exact hm)
  constructor
  · have hmain := fold_replace_flat (findall l) (parseSegs l) hg hps hms
    rw [hflat] at hmain
    rw [hmain, fold_set_map,
        map_setMany_tmpl (findall l) (parseSegs l)
          (by intro p hp; rw [hphs] at hp; exact hp)]
    exact htmpl
  · have h2 := fill_tmpl (parseSegs l) hg
    rw [hphs, htmpl, hflat] at h2
    exact h2

/-- The `String`-level replacement loop projects to the character level. -/
theorem replace_placeholders_data (ms : List String) :
    ∀ s : String, (Objects.replace_placeholders s ms).data =
      ms.foldl
        (fun acc m => replaceAll acc ('{' :: (m.data ++ ['}'])) ['{', '}'])
        s.data := by
  induction ms with
  | nil => intro s; rfl
  | cons m ms ih =>
    intro s
    rw [Objects.replace_placeholders, List.foldl_cons, List.foldl_cons,
        ← Objects.replace_placeholders, ih]
    have hx : (Objects.pyReplace s ("\x7b" ++ m ++ "\x7d") "\x7b\x7d").data =
        replaceAll s.data ('{' :: (m.data ++ ['}'])) ['{', '}'] := by
      show replaceAll s.data ("\x7b" ++ m ++ "\x7d").data "\x7b\x7d".data = _
      rw [String.data_append, String.data_append]
      rfl
    rw [hx]

theorem placeholders_values_eq (ms : List String) :
    Objects.placeholders_values ms =
      some (ms.map (fun m => Objects.pathOf [.vstr m])) := by
  induction ms with
  | nil => rfl
  | cons m ms ih =>
    unfold Objects.placeholders_values
    rw [ih]
    simp [Objects.path, Objects.names, Objects.namesFrags]

/-- C1, amended: for a string literal whose k placeholder captures contain
no nested opening brace, the compiled result holds one single-segment path
per occurrence, first-to-last with duplicates kept, its stored template is
the original text with every placeholder occurrence replaced by the empty
positional marker, and refilling the markers positionally with the
placeholder texts reconstructs the original text. -/
theorem claim_C1_string_template_amended
    (d tt v : String) (rest : List Tree)
    (hbr : ∀ m ∈ findall (Objects.stripQuotes v).data, '{' ∉ m)
    (hne : findall (Objects.stripQuotes v).data ≠ []) :
    Objects.string (.node d (.token tt v :: rest)) =
      some (.vdict [("$OBJECT", .vstr "string"),
        ("string", .vstr ⟨replaceEachOccurrence (Objects.stripQuotes v).data⟩),
        ("values", .vlist ((findall (Objects.stripQuotes v).data).map
          (fun m => Objects.pathOf [.vstr ⟨m⟩])))]) ∧
    fillMarkers (replaceEachOccurrence (Objects.stripQuotes v).data)
        ((findall (Objects.stripQuotes v).data).map
          (fun m => '{' :: (m ++ ['}']))) =
      (Objects.stripQuotes v).data := by
  have hchar := replace_placeholders_char (Objects.stripQuotes v).data hbr
  refine ⟨?_, hchar.2⟩
  have hmsS : Objects.findallS (Objects.stripQuotes v) =
      (findall (Objects.stripQuotes v).data).map (fun cs => (⟨cs⟩ : String)) := rfl
  have hneS : ¬ Objects.findallS (Objects.stripQuotes v) = [] := by
    rw [hmsS]
    simp [hne]
  have hstr : Objects.replace_placeholders (Objects.stripQuotes v)
      (Objects.findallS (Objects.stripQuotes v)) =
      (⟨replaceEachOccurrence (Objects.stripQuotes v).data⟩ : String) := by
    apply String.ext
    rw [replace_placeholders_data, hmsS, List.foldl_map]
    exact hchar.1
  show Objects.string (.node d (.token tt v :: rest)) = _
  simp only [Objects.string]
  rw [if_neg hneS, placeholders_values_eq, Option.map_some']
  rw [hstr, hmsS, List.map_map]
  rfl

/-- C1 witness: the literal `'a\x7bb\x7dc'` — one brace-free placeholder. -/
theorem claim_C1_string_template_amended_witness :
    Objects.string (.node "string" [.token "STR" "'a\x7bb\x7dc'"]) =
      some (.vdict [("$OBJECT", .vstr "string"),
        ("string",
         .vstr ⟨replaceEachOccurrence (Objects.stripQuotes "'a\x7bb\x7dc'").data⟩),
        ("values", .vlist ((findall (Objects.stripQuotes "'a\x7bb\x7dc'").data).map
          (fun m => Objects.pathOf [.vstr ⟨m⟩])))]) ∧
    fillMarkers (replaceEachOccurrence (Objects.stripQuotes "'a\x7bb\x7dc'").data)
        ((findall (Objects.stripQuotes "'a\x7bb\x7dc'").data).map
          (fun m => '{' :: (m ++ ['}']))) =
      (Objects.stripQuotes "'a\x7bb\x7dc'").data := by
  have hfa : findall (Objects.stripQuotes "'a\x7bb\x7dc'").data = [['b']] := by
    simp [Objects.stripQuotes, findall, splitBrace]
  exact claim_C1_string_template_amended "string" "STR" "'a\x7bb\x7dc'" []
    (by rw [hfa]; intro m hm; simp at hm; subst hm; decide)
    (by rw [hfa]; simp)

/-- C1 counterexample: the literal `'\x7bm\x7dx\x7by\x7bm\x7d'` has the two
placeholder occurrences `\x7bm\x7d` and `\x7by\x7bm\x7d`; the compiler's
stored template is `\x7b\x7dx\x7by\x7b\x7d` (the first global replacement
also rewrites inside the second occurrence), while the claim prescribes
the per-occurrence replacement `\x7b\x7dx\x7b\x7d` — a different string. -/
theorem claim_C1_counterexample :
    Objects.string (.node "string" [.token "STR" "'\x7bm\x7dx\x7by\x7bm\x7d'"]) =
      some (.vdict [("$OBJECT", .vstr "string"),
        ("string", .vstr "\x7b\x7dx\x7by\x7b\x7d"),
        ("values", .vlist [Objects.pathOf [.vstr "m"],
                           Objects.pathOf [.vstr "y\x7bm"]])]) ∧
    (⟨replaceEachOccurrence
        (Objects.stripQuotes "'\x7bm\x7dx\x7by\x7bm\x7d'").data⟩ : String) =
      "\x7b\x7dx\x7b\x7d" ∧
    ("\x7b\x7dx\x7by\x7b\x7d" : String) ≠ "\x7b\x7dx\x7b\x7d" := by
  refine ⟨?_, ?_, by decide⟩
  · simp [Objects.string, Objects.findallS, Objects.stripQuotes, findall,
      splitBrace, Objects.placeholders_values, Objects.path, Objects.names,
      Objects.namesFrags, Objects.pathOf, Objects.replace_placeholders,
      Objects.pyReplace, replaceAll, List.isPrefixOf]
  · apply String.ext
    simp [Objects.stripQuotes, replaceEachOccurrence, splitBrace]
